import Mathlib

/-!
Shallow embedding of `src/casava/reader_impl.py`, a streaming CSV reader that
detects character encoding, line terminator and field delimiter from a bounded
sample of its input and then decodes the remainder of the stream.

Modelling conventions:
* A Python 2 byte string is a `List Nat` (one `Nat` per byte).
* A Python iterator of chunks/lines is a Lean list consumed from the front;
  a function that advances an iterator returns the consumed part together with
  the remaining list.
* The external collaborators (`chardet.detect`, `csv.Sniffer().sniff`,
  `csv.reader`, codec decoding) are not part of this repository; they appear
  as function parameters of the embedded operations.  A strict codec decode
  that can raise `UnicodeDecodeError` is a function into `Option`;
  error-tolerant decoding (`errors='ignore'`) is a total function.
* Python floats in `variance` and `_detect_sep` are modelled as exact
  rationals.
-/

namespace Casava

/-- Bytes of a Python 2 `str`. -/
abbrev ByteStr := List Nat

/-- Leftmost non-overlapping split of a byte string by the separator `sep`:
the semantics of Python 2 `s.split(sep)` for a non-empty separator.  (Python
raises `ValueError` on an empty separator; for totality this model returns
`[s]` in that case, and every theorem using it assumes `sep ≠ []`.) -/
def splitOnL (sep : ByteStr) : ByteStr → List ByteStr
  | [] => [[]]
  | c :: rest =>
    if h : sep ≠ [] ∧ sep.isPrefixOf (c :: rest) then
      [] :: splitOnL sep (List.drop sep.length (c :: rest))
    else
      (c :: (splitOnL sep rest).headI) :: (splitOnL sep rest).tail
termination_by s => s.length
decreasing_by
  · simp only [List.length_drop, List.length_cons]
    have hp : 0 < sep.length := List.length_pos.mpr h.1
    omega
  · simp only [List.length_cons]; omega

/-- The last piece of `splitOnL sep s` (`lines[-1]` in the Python source). -/
def lastPiece (sep s : ByteStr) : ByteStr := (splitOnL sep s).getLastD []

/-- Joins pieces back with the separator between consecutive pieces (the
inverse direction of `splitOnL`, used to state round-trip facts). -/
def unsplit (sep : ByteStr) : List ByteStr → ByteStr
  | [] => []
  | [p] => p
  | p :: q :: rest => p ++ sep ++ unsplit sep (q :: rest)

/-- Python substring containment `needle in hay` as a Bool, by scanning every
suffix position. -/
def isSub (needle : ByteStr) : ByteStr → Bool
  | [] => needle.isEmpty
  | c :: rest => needle.isPrefixOf (c :: rest) || isSub needle rest

/-- Loop of `line_iter` (reader_impl.py lines 104-115): `cur_buf` is the
pending fragment carried between chunks; each chunk is appended to the buffer,
the buffer is split by `eol`, every piece but the last is yielded with the
terminator re-appended, and the last piece becomes the new buffer.  After the
source is exhausted a non-empty buffer is split once more and each piece is
yielded with the terminator appended. -/
def lineIterGo (eol : ByteStr) (cur_buf : ByteStr) : List ByteStr → List ByteStr
  | [] => if cur_buf ≠ [] then (splitOnL eol cur_buf).map (fun l => l ++ eol) else []
  | chunk :: rest =>
    ((splitOnL eol (cur_buf ++ chunk)).dropLast).map (fun l => l ++ eol) ++
      lineIterGo eol (lastPiece eol (cur_buf ++ chunk)) rest

/-- `line_iter(content_iter, eol)`: iterate over lines separated by `eol`. -/
def line_iter (content_iter : List ByteStr) (eol : ByteStr) : List ByteStr :=
  lineIterGo eol [] content_iter

/-- The lines `line_iter` produces when the whole content arrives in one go:
every piece of the leftmost split except the last, each with the terminator
appended, plus the last piece with the terminator appended when it is
non-empty.  `lineIterGo` is proved equal to this closed form. -/
def batchLines (eol s : ByteStr) : List ByteStr :=
  ((splitOnL eol s).dropLast).map (fun l => l ++ eol) ++
    (if lastPiece eol s = [] then [] else [lastPiece eol s ++ eol])

/-- Loop of `accumulate_bytes` (reader_impl.py lines 118-129): while the
accumulated size is below `size`, pull the next chunk; `StopIteration` on an
exhausted source ends the loop.  Returns the joined buffer and the remaining
(unconsumed) chunks of the iterator. -/
def accAux (size : Nat) : List ByteStr → List ByteStr → Nat → ByteStr × List ByteStr
  | [], cur_buf, _ => (cur_buf.flatten, [])
  | chunk :: rest, cur_buf, cur_size =>
    if cur_size < size then accAux size rest (cur_buf ++ [chunk]) (cur_size + chunk.length)
    else (cur_buf.flatten, chunk :: rest)

/-- `accumulate_bytes(it, size)`: accumulate around `size` bytes from the
content iterator; also returns what is left of the iterator. -/
def accumulate_bytes (it : List ByteStr) (size : Nat) : ByteStr × List ByteStr :=
  accAux size it [] 0

/-- `accumulate_lines(it, count)`: accumulate up to `count` lines from a line
iterator; also returns what is left of the iterator. -/
def accumulate_lines (it : List ByteStr) (count : Nat) : List ByteStr × List ByteStr :=
  (it.take count, it.drop count)

/-- `reader.ENC_DETECTION_SIZE = 100 * 1024`. -/
def ENC_DETECTION_SIZE : Nat := 100 * 1024

/-- `reader.SEP_DETECTION_SIZE = 1024`. -/
def SEP_DETECTION_SIZE : Nat := 1024

/-- `reader.SEP_CHARS = [',', ';', '\t']` as byte values. -/
def SEP_CHARS : List Nat := [44, 59, 9]

/-- Python `x or d` applied to an optional integer argument: `None` and `0`
are both falsy, so either yields the default. -/
def orDefault (x : Option Nat) (d : Nat) : Nat :=
  match x with
  | none => d
  | some v => if v = 0 then d else v

/-- `reader.__init__`: the pair `(_enc_detection_size, _sep_detection_size)`
computed from the optional constructor arguments. -/
def reader_init (enc_detection_size sep_detection_size : Option Nat) : Nat × Nat :=
  (orDefault enc_detection_size ENC_DETECTION_SIZE,
   orDefault sep_detection_size SEP_DETECTION_SIZE)

/-- A csv dialect: field delimiter byte and line-terminator byte string. -/
structure Dialect where
  delimiter : Nat
  lineterminator : ByteStr

/-- Bytes of `'\r\n'`. -/
def CRLF : ByteStr := [13, 10]

/-- Bytes of `'\n'`. -/
def LF : ByteStr := [10]

/-- Bytes of `'\r'`. -/
def CR : ByteStr := [13]

/-- `csv.excel`: delimiter `','`, line terminator `'\r\n'` (the fallback
dialect when structural sniffing raises `csv.Error`). -/
def excel : Dialect := ⟨44, CRLF⟩

/-- Terminator correction step of `reader._detect_encoding_dialect` (lines
47-52): if the sniffed terminator is not a literal substring of the sample,
probe `'\r\n'`, `'\n'`, `'\r'` in order and take the first that occurs in the
sample; keep the original choice when none occurs. -/
def correct_terminator (term sample : ByteStr) : ByteStr :=
  if isSub term sample then term
  else
    match [CRLF, LF, CR].find? (fun e => isSub e sample) with
    | some e => e
    | none => term

/-- Result of `reader._detect_encoding_dialect`: the detected encoding, the
corrected dialect, and the reconstructed chunk stream
`chain([content_header], content_iter)`. -/
structure DetectResult where
  encoding : Option ByteStr
  dialect : Dialect
  stream : List ByteStr

/-- `reader._detect_encoding_dialect` (lines 40-53).  `chardet` models
`chardet.detect(...)['encoding']` and `sniff` models
`csv.Sniffer().sniff(...)` returning `none` when it raises `csv.Error`. -/
def detect_encoding_dialect (chardet : ByteStr → Option ByteStr)
    (sniff : ByteStr → Option Dialect) (chunks : List ByteStr) (encSize : Nat) :
    DetectResult :=
  let p := accumulate_bytes chunks encSize
  let d0 := (sniff p.1).getD excel
  { encoding := chardet p.1
    dialect := ⟨d0.delimiter, correct_terminator d0.lineterminator p.1⟩
    stream := p.1 :: p.2 }

/-- Bytes of the string `'utf-8'`. -/
def utf8 : ByteStr := [117, 116, 102, 45, 56]

/-- `auto_unicode(bytes)` (lines 95-101): guess an encoding with chardet and
decode with `errors='ignore'`; fall back to lossy UTF-8 when chardet reports
no encoding.  `decodeIgnore` is total: decoding with `errors='ignore'` never
raises. -/
def auto_unicode (chardet : ByteStr → Option ByteStr)
    (decodeIgnore : ByteStr → ByteStr → ByteStr) (b : ByteStr) : ByteStr :=
  match chardet b with
  | some enc => decodeIgnore enc b
  | none => decodeIgnore utf8 b

/-- One cell of `reader._decode_row` when a stream encoding was detected:
`unicode(b_cell, encoding)` with the `UnicodeDecodeError` handler falling back
to `auto_unicode`.  `decodeStrict enc b = none` models the decode error. -/
def decode_cell (chardet : ByteStr → Option ByteStr)
    (decodeStrict : ByteStr → ByteStr → Option ByteStr)
    (decodeIgnore : ByteStr → ByteStr → ByteStr) (enc b : ByteStr) : ByteStr :=
  match decodeStrict enc b with
  | some u => u
  | none => auto_unicode chardet decodeIgnore b

/-- Per-cell decode as a function of the optional stream encoding. -/
def decode_cell_opt (chardet : ByteStr → Option ByteStr)
    (decodeStrict : ByteStr → ByteStr → Option ByteStr)
    (decodeIgnore : ByteStr → ByteStr → ByteStr)
    (encoding : Option ByteStr) (b : ByteStr) : ByteStr :=
  match encoding with
  | none => auto_unicode chardet decodeIgnore b
  | some enc => decode_cell chardet decodeStrict decodeIgnore enc b

/-- `reader._decode_row(row, encoding)` (lines 82-92). -/
def decode_row (chardet : ByteStr → Option ByteStr)
    (decodeStrict : ByteStr → ByteStr → Option ByteStr)
    (decodeIgnore : ByteStr → ByteStr → ByteStr)
    (row : List ByteStr) (encoding : Option ByteStr) : List ByteStr :=
  match encoding with
  | none => row.map (auto_unicode chardet decodeIgnore)
  | some enc => row.map (decode_cell chardet decodeStrict decodeIgnore enc)

/-- `unicode(b_cell, encoding)` in the exception monad: `Except.error ()` is a
raised `UnicodeDecodeError`. -/
def unicode_exc (decodeStrict : ByteStr → ByteStr → Option ByteStr)
    (b enc : ByteStr) : Except Unit ByteStr :=
  match decodeStrict enc b with
  | some u => Except.ok u
  | none => Except.error ()

/-- The `try/except UnicodeDecodeError` body of `reader._decode_row` in the
exception monad: the handler replaces the failed strict decode by
`auto_unicode`, which is total. -/
def decode_cell_exc (chardet : ByteStr → Option ByteStr)
    (decodeStrict : ByteStr → ByteStr → Option ByteStr)
    (decodeIgnore : ByteStr → ByteStr → ByteStr) (enc b : ByteStr) :
    Except Unit ByteStr :=
  match unicode_exc decodeStrict b enc with
  | Except.ok u => Except.ok u
  | Except.error _ => Except.ok (auto_unicode chardet decodeIgnore b)

/-- `reader._decode_row` in the exception monad: an uncaught exception in any
cell would abort the whole row. -/
def decode_row_exc (chardet : ByteStr → Option ByteStr)
    (decodeStrict : ByteStr → ByteStr → Option ByteStr)
    (decodeIgnore : ByteStr → ByteStr → ByteStr)
    (row : List ByteStr) (encoding : Option ByteStr) :
    Except Unit (List ByteStr) :=
  match encoding with
  | none => Except.ok (row.map (auto_unicode chardet decodeIgnore))
  | some enc => row.mapM (decode_cell_exc chardet decodeStrict decodeIgnore enc)

/-- `reader.__iter__` (lines 26-38): detect encoding and dialect on a prefix
sample, rebuild the stream, split it into lines with the corrected terminator,
parse rows with the external csv grammar parser `csvParse`, and decode each
row. -/
def reader_iter (chardet : ByteStr → Option ByteStr)
    (sniff : ByteStr → Option Dialect)
    (csvParse : Dialect → List ByteStr → List (List ByteStr))
    (decodeStrict : ByteStr → ByteStr → Option ByteStr)
    (decodeIgnore : ByteStr → ByteStr → ByteStr)
    (chunks : List ByteStr) (encSize : Nat) : List (List ByteStr) :=
  let r := detect_encoding_dialect chardet sniff chunks encSize
  let ls := line_iter r.stream r.dialect.lineterminator
  (csvParse r.dialect ls).map
    (fun row => decode_row chardet decodeStrict decodeIgnore row r.encoding)

/-- `variance(items)` (lines 144-146), with Python float arithmetic modelled
as exact rationals; only ever applied to non-empty lists in the source. -/
def variance (items : List Nat) : ℚ :=
  let mean : ℚ := (items.sum : ℚ) / (items.length : ℚ)
  (items.map (fun it => ((it : ℚ) - mean) * ((it : ℚ) - mean))).sum /
    (items.length : ℚ)

/-- Cell lengths collected by `reader._detect_sep`: the lengths of all cells
of all rows that split into more than one cell. -/
def cell_lengths (rows : List (List ByteStr)) : List Nat :=
  ((rows.filter (fun row => 1 < row.length)).map
    (fun row => row.map List.length)).flatten

/-- The `sep_variances` mapping of `reader._detect_sep`, as an association
list in `SEP_CHARS` order: each candidate that produced at least one
multi-cell row, paired with the variance of its collected cell lengths.
`csvParse` models `csv.reader(lines, delimiter=sep_char)`. -/
def sep_variances_of (csvParse : Nat → List ByteStr → List (List ByteStr))
    (lines : List ByteStr) : List (Nat × ℚ) :=
  SEP_CHARS.filterMap (fun c =>
    let cl := cell_lengths (csvParse c lines)
    if cl = [] then none else some (c, variance cl))

/-- The variances after the fixed `+ 0.1` penalty. -/
def penalized_of (csvParse : Nat → List ByteStr → List (List ByteStr))
    (lines : List ByteStr) : List (Nat × ℚ) :=
  (sep_variances_of csvParse lines).map (fun p => (p.1, p.2 + (1 : ℚ)/10))

/-- Python `min(items, key=...)`: the first item attaining the minimal
variance. -/
def min_item (l : List (Nat × ℚ)) : Nat × ℚ :=
  match l with
  | [] => (44, 0)
  | h :: t => t.foldl (fun a b => if b.2 < a.2 then b else a) h

/-- `reader._detect_sep(it)` (lines 55-80): accumulate up to
`sepSize` lines, compute per-candidate variances, and select the delimiter,
preferring `','` when its penalized variance is close to the best; returns
the chosen delimiter byte together with the replayed line sequence. -/
def detect_sep (csvParse : Nat → List ByteStr → List (List ByteStr))
    (it : List ByteStr) (sepSize : Nat) : Nat × List ByteStr :=
  let lines := (accumulate_lines it sepSize).1
  let rest := (accumulate_lines it sepSize).2
  if sep_variances_of csvParse lines = [] then (44, lines ++ rest)
  else
    let pen := penalized_of csvParse lines
    let best := min_item pen
    let best_char : Nat :=
      match List.lookup 44 pen with
      | some commaVar => if best.2 / commaVar > (9 : ℚ)/10 then 44 else best.1
      | none => best.1
    (best_char, lines ++ rest)

/-- Split one line at every occurrence of the byte `c`, no quoting: the
behaviour of the external `csv.reader` on quote-free input, used to
instantiate the abstract grammar parser on concrete examples. -/
def splitChar (c : Nat) : ByteStr → List ByteStr
  | [] => [[]]
  | b :: rest =>
    if b = c then [] :: splitChar c rest
    else (b :: (splitChar c rest).headI) :: (splitChar c rest).tail

/-- The external csv parser instantiated as a plain per-line split. -/
def naiveCsv (c : Nat) (lines : List ByteStr) : List (List ByteStr) :=
  lines.map (splitChar c)

/-- Length of the longest chunk of a chunk sequence. -/
def maxChunkLen (chunks : List ByteStr) : Nat :=
  chunks.foldr (fun c m => max c.length m) 0

/-- Sample lines for the delimiter tie-break boundary: `",xx"`,
`"aaa;bb;c;d;e;f"`, `";;;"`.  Comma cell lengths are `[0, 2]` (variance `1`),
semicolon cell lengths are `[3, 2, 1, 1, 1, 1, 0, 0, 0, 0]` (variance
`89/100`), so after the `0.1` penalty the best-to-comma ratio is exactly
`9/10`. -/
def exLines : List ByteStr :=
  [[44, 120, 120],
   [97, 97, 97, 59, 98, 98, 59, 99, 59, 100, 59, 101, 59, 102],
   [59, 59, 59]]

/-- Sample lines `",x"`, `",yy"` where only comma has signal, giving a
best-to-comma ratio of `1`. -/
def exLines2 : List ByteStr := [[44, 120], [44, 121, 121]]

/-- Bridge between the executable `List.isPrefixOf` and the inductive
prefix-order proposition. -/
theorem isPrefixOf_eq_true_iff (l₁ l₂ : ByteStr) : l₁.isPrefixOf l₂ ↔ l₁ <+: l₂ :=
  List.isPrefixOf_iff_prefix

/-- Executable substring containment agrees with the infix proposition. -/
theorem isSub_eq_true_iff (needle : ByteStr) :
    ∀ hay : ByteStr, isSub needle hay = true ↔ needle <:+: hay
  | [] => by
    simp only [isSub, List.isEmpty_iff]
    exact ⟨fun h => by subst h; exact List.infix_rfl, fun h => List.eq_nil_of_infix_nil h⟩
  | c :: rest => by
    simp only [isSub, Bool.or_eq_true, isPrefixOf_eq_true_iff,
      isSub_eq_true_iff needle rest, List.infix_cons_iff]

/-- Splitting the empty string gives one empty piece. -/
theorem splitOnL_nil (sep : ByteStr) : splitOnL sep [] = [[]] := by
  simp [splitOnL]

/-- Splitting never yields an empty list of pieces. -/
theorem splitOnL_ne_nil (sep s : ByteStr) : splitOnL sep s ≠ [] := by
  cases s with
  | nil => simp [splitOnL]
  | cons c rest =>
    rw [splitOnL]
    split <;> simp

/-- Joining the pieces with the separator restores the original string. -/
theorem unsplit_splitOnL (sep : ByteStr) : ∀ s : ByteStr,
    unsplit sep (splitOnL sep s) = s := by
  intro s
  induction s using splitOnL.induct sep with
  | case1 => simp [splitOnL, unsplit]
  | case2 c rest h ih =>
    obtain ⟨p, ps, hps⟩ := List.exists_cons_of_ne_nil
      (splitOnL_ne_nil sep (List.drop sep.length (c :: rest)))
    obtain ⟨t, ht⟩ := isPrefixOf_eq_true_iff sep (c :: rest) |>.mp h.2
    rw [splitOnL, dif_pos h, hps, unsplit, ← hps, ih, ← ht, List.drop_left]
    rfl
  | case3 c rest h ih =>
    obtain ⟨p, ps, hps⟩ := List.exists_cons_of_ne_nil (splitOnL_ne_nil sep rest)
    rw [splitOnL, dif_neg h, hps]
    cases ps with
    | nil =>
      simp only [List.headI, List.tail]
      rw [hps, unsplit] at ih
      simp [unsplit, ih]
    | cons q ps2 =>
      simp only [List.headI, List.tail]
      rw [hps, unsplit] at ih
      simp [unsplit, ← ih]

/-- The first piece of a split is an initial segment of the string. -/
theorem headI_splitOnL_leading (sep : ByteStr) : ∀ s : ByteStr,
    (splitOnL sep s).headI <+: s := by
  intro s
  induction s using splitOnL.induct sep with
  | case1 => simp [splitOnL]
  | case2 c rest h ih =>
    rw [splitOnL, dif_pos h]
    simp
  | case3 c rest h ih =>
    rw [splitOnL, dif_neg h]
    simp only [List.headI]
    exact List.cons_prefix_cons.mpr ⟨rfl, ih⟩

/-- No piece produced by a split contains the (non-empty) separator. -/
theorem not_infix_of_mem_splitOnL (sep : ByteStr) (hsep : sep ≠ []) :
    ∀ s : ByteStr, ∀ p ∈ splitOnL sep s, ¬ sep <:+: p := by
  intro s
  induction s using splitOnL.induct sep with
  | case1 =>
    intro p hp
    simp only [splitOnL_nil, List.mem_singleton] at hp
    subst hp
    exact fun h => hsep (List.eq_nil_of_infix_nil h)
  | case2 c rest h ih =>
    rw [splitOnL, dif_pos h]
    intro p hp
    rcases List.mem_cons.mp hp with rfl | hp2
    · exact fun h2 => hsep (List.eq_nil_of_infix_nil h2)
    · exact ih p hp2
  | case3 c rest h ih =>
    rw [splitOnL, dif_neg h]
    intro p hp
    rcases List.mem_cons.mp hp with rfl | hp2
    · intro hinf
      rcases List.infix_cons_iff.mp hinf with hpre | hinf2
      · have hfull : sep <+: c :: rest :=
          hpre.trans (List.cons_prefix_cons.mpr ⟨rfl, headI_splitOnL_leading sep rest⟩)
        exact h ⟨hsep, isPrefixOf_eq_true_iff sep (c :: rest) |>.mpr hfull⟩
      · obtain ⟨q, qs, hqs⟩ := List.exists_cons_of_ne_nil (splitOnL_ne_nil sep rest)
        have hmem : (splitOnL sep rest).headI ∈ splitOnL sep rest := by
          rw [hqs]; exact List.mem_cons_self q qs
        exact ih _ hmem hinf2
    · exact ih p (List.mem_of_mem_tail hp2)

/-- A string not containing the separator splits into a single piece. -/
theorem splitOnL_eq_single (sep : ByteStr) (hsep : sep ≠ []) :
    ∀ s : ByteStr, ¬ sep <:+: s → splitOnL sep s = [s] := by
  intro s
  induction s using splitOnL.induct sep with
  | case1 => intro _; exact splitOnL_nil sep
  | case2 c rest h ih =>
    intro hs
    exact absurd ((isPrefixOf_eq_true_iff sep (c :: rest) |>.mp h.2).isInfix) hs
  | case3 c rest h ih =>
    intro hs
    have hrest : ¬ sep <:+: rest := fun h2 => hs (List.infix_cons_iff.mpr (Or.inr h2))
    rw [splitOnL, dif_neg h, ih hrest]
    rfl

/-- Default value of `getLastD` is irrelevant on a non-empty list. -/
theorem getLastD_congr (l : List ByteStr) (h : l ≠ []) (d1 d2 : ByteStr) :
    l.getLastD d1 = l.getLastD d2 := by
  rw [List.getLastD_eq_getLast?, List.getLastD_eq_getLast?,
    List.getLast?_eq_getLast l h]
  rfl

/-- On an appended list, `getLastD` only sees the non-empty right part. -/
theorem getLastD_append_right {l₁ l₂ : List ByteStr} (h : l₂ ≠ []) (d : ByteStr) :
    (l₁ ++ l₂).getLastD d = l₂.getLastD d := by
  rw [List.getLastD_eq_getLast?, List.getLastD_eq_getLast?,
    List.getLast?_append_of_ne_nil l₁ h]

/-- Splitting a concatenation: all pieces of `x` but its final fragment are
produced unchanged, and splitting resumes on the final fragment glued to `y`.
This is the chunk-boundary-independence engine of `line_iter`. -/
theorem splitOnL_append (sep : ByteStr) (hsep : sep ≠ []) :
    ∀ x y : ByteStr,
      splitOnL sep (x ++ y) =
        (splitOnL sep x).dropLast ++ splitOnL sep (lastPiece sep x ++ y) := by
  intro x
  induction x using splitOnL.induct sep with
  | case1 =>
    intro y
    simp [splitOnL_nil, lastPiece]
  | case2 c rest h ih =>
    intro y
    have hlen : sep.length ≤ (c :: rest).length :=
      (isPrefixOf_eq_true_iff sep (c :: rest) |>.mp h.2).length_le
    have hpre2 : sep.isPrefixOf ((c :: rest) ++ y) = true :=
      isPrefixOf_eq_true_iff sep ((c :: rest) ++ y) |>.mpr
        ((isPrefixOf_eq_true_iff sep (c :: rest) |>.mp h.2).trans
          (List.prefix_append (c :: rest) y))
    have hdrop : List.drop sep.length ((c :: rest) ++ y) =
        List.drop sep.length (c :: rest) ++ y := by
      rw [List.drop_append_eq_append_drop, Nat.sub_eq_zero_of_le hlen, List.drop_zero]
    obtain ⟨p, ps, hps⟩ := List.exists_cons_of_ne_nil
      (splitOnL_ne_nil sep (List.drop sep.length (c :: rest)))
    have hx : splitOnL sep (c :: rest) = [] :: p :: ps := by
      rw [splitOnL, dif_pos h, hps]
    have hxy : splitOnL sep ((c :: rest) ++ y) =
        [] :: splitOnL sep (List.drop sep.length (c :: rest) ++ y) := by
      rw [List.cons_append, splitOnL, dif_pos ⟨h.1, by rw [← List.cons_append]; exact hpre2⟩]
      rw [← List.cons_append, hdrop]
    rw [hxy, ih y, hx]
    have hlast : lastPiece sep (c :: rest) =
        lastPiece sep (List.drop sep.length (c :: rest)) := by
      unfold lastPiece
      rw [hx, hps, List.getLastD_cons]
    rw [hlast]
    simp [hps]
  | case3 c rest h ih =>
    intro y
    by_cases hstr : sep.isPrefixOf ((c :: rest) ++ y) = true
    · have hshort : ¬ sep <:+: (c :: rest) := by
        intro hinf
        have hle : sep.length ≤ (c :: rest).length := hinf.length_le
        have : sep <+: c :: rest :=
          List.prefix_of_prefix_length_le
            (isPrefixOf_eq_true_iff sep ((c :: rest) ++ y) |>.mp hstr)
            (List.prefix_append (c :: rest) y) hle
        exact h ⟨hsep, isPrefixOf_eq_true_iff sep (c :: rest) |>.mpr this⟩
      rw [splitOnL_eq_single sep hsep (c :: rest) hshort]
      simp [lastPiece, splitOnL_eq_single sep hsep (c :: rest) hshort]
    · obtain ⟨p, ps, hps⟩ := List.exists_cons_of_ne_nil (splitOnL_ne_nil sep rest)
      have hx : splitOnL sep (c :: rest) = (c :: p) :: ps := by
        rw [splitOnL, dif_neg h, hps]
        rfl
      have hxy : splitOnL sep (c :: (rest ++ y)) =
          (c :: (splitOnL sep (rest ++ y)).headI) :: (splitOnL sep (rest ++ y)).tail := by
        rw [splitOnL, dif_neg ?hneg]
        case hneg =>
          intro hcontra
          exact hstr (by rw [List.cons_append]; exact hcontra.2)
      cases ps with
      | nil =>
        have hp : p = rest := by
          have hu := unsplit_splitOnL sep rest
          rw [hps, unsplit] at hu
          exact hu
        subst hp
        simp [hx, lastPiece]
      | cons q ps2 =>
        have hlast : lastPiece sep (c :: rest) = lastPiece sep rest := by
          unfold lastPiece
          rw [hx, hps, List.getLastD_eq_getLast?, List.getLastD_eq_getLast?,
            List.getLast?_cons_cons, List.getLast?_cons_cons]
        rw [List.cons_append, hxy, ih y, hps, hx, hlast]
        rfl

/-- The default-valued last element of a non-empty list is a member. -/
theorem getLastD_mem (l : List ByteStr) (h : l ≠ []) : l.getLastD [] ∈ l := by
  rw [List.getLastD_eq_getLast?, List.getLast?_eq_getLast l h, Option.getD_some]
  exact List.getLast_mem h

/-- A non-empty separator is not an infix of the empty string. -/
theorem not_infix_nil (eol : ByteStr) (heol : eol ≠ []) : ¬ eol <:+: ([] : ByteStr) :=
  fun h => heol (List.eq_nil_of_infix_nil h)

/-- The trailing fragment kept by the splitter never contains the separator. -/
theorem lastPiece_not_infix (sep : ByteStr) (hsep : sep ≠ []) (s : ByteStr) :
    ¬ sep <:+: lastPiece sep s :=
  not_infix_of_mem_splitOnL sep hsep s _
    (getLastD_mem _ (splitOnL_ne_nil sep s))

/-- The last piece survives gluing more input after the string. -/
theorem lastPiece_append (sep : ByteStr) (hsep : sep ≠ []) (x y : ByteStr) :
    lastPiece sep (x ++ y) = lastPiece sep (lastPiece sep x ++ y) := by
  unfold lastPiece
  rw [splitOnL_append sep hsep x y,
    getLastD_append_right (splitOnL_ne_nil sep (lastPiece sep x ++ y)) []]
  rfl

/-- The incremental line splitter computes the same lines as splitting the
fully concatenated input in one go, whatever the chunking. -/
theorem lineIterGo_eq_batch (eol : ByteStr) (heol : eol ≠ []) :
    ∀ (chunks : List ByteStr) (buf : ByteStr), ¬ eol <:+: buf →
      lineIterGo eol buf chunks = batchLines eol (buf ++ chunks.flatten) := by
  intro chunks
  induction chunks with
  | nil =>
    intro buf hbuf
    rw [List.flatten_nil, List.append_nil]
    by_cases hb : buf = []
    · subst hb
      simp [lineIterGo, batchLines, splitOnL_nil, lastPiece]
    · simp [lineIterGo, batchLines, splitOnL_eq_single eol heol buf hbuf, lastPiece, hb]
  | cons c rest ih =>
    intro buf hbuf
    have hlp : ¬ eol <:+: lastPiece eol (buf ++ c) :=
      lastPiece_not_infix eol heol (buf ++ c)
    rw [lineIterGo, ih (lastPiece eol (buf ++ c)) hlp, List.flatten_cons,
      ← List.append_assoc]
    unfold batchLines
    rw [splitOnL_append eol heol (buf ++ c) rest.flatten,
      List.dropLast_append_of_ne_nil _ (splitOnL_ne_nil eol (lastPiece eol (buf ++ c) ++ rest.flatten)),
      lastPiece_append eol heol (buf ++ c) rest.flatten]
    simp [List.map_append, List.append_assoc]

/-- Concatenating all pieces but the last, each with the separator appended,
followed by the last piece, is the separator-join of the pieces. -/
theorem unsplit_eq_flatten_dropLast (sep : ByteStr) : ∀ l : List ByteStr,
    ((l.dropLast).map (fun p => p ++ sep)).flatten ++ l.getLastD [] = unsplit sep l
  | [] => by simp [unsplit]
  | [p] => by simp [unsplit]
  | p :: q :: rest => by
    have ih := unsplit_eq_flatten_dropLast sep (q :: rest)
    rw [unsplit, ← ih]
    rw [show (p :: q :: rest).dropLast = p :: (q :: rest).dropLast from rfl,
      List.map_cons, List.flatten_cons,
      List.getLastD_eq_getLast?, List.getLast?_cons_cons, ← List.getLastD_eq_getLast?]
    simp [List.append_assoc]

/-- Closed form for the total byte content of the yielded lines. -/
theorem flatten_batchLines (eol : ByteStr) (heol : eol ≠ []) (s : ByteStr) :
    (batchLines eol s).flatten =
      if lastPiece eol s = [] then s else s ++ eol := by
  have hkey : (((splitOnL eol s).dropLast).map (fun p => p ++ eol)).flatten ++
      lastPiece eol s = s := by
    unfold lastPiece
    rw [unsplit_eq_flatten_dropLast eol (splitOnL eol s)]
    exact unsplit_splitOnL eol s
  unfold batchLines
  rw [List.flatten_append]
  by_cases hl : lastPiece eol s = []
  · rw [if_pos hl, if_pos hl]
    rw [hl, List.append_nil] at hkey
    rw [List.flatten_nil, List.append_nil]
    exact hkey
  · rw [if_neg hl, if_neg hl]
    have hsingle : ([lastPiece eol s ++ eol] : List ByteStr).flatten =
        lastPiece eol s ++ eol := by simp
    rw [hsingle]
    conv_rhs => rw [← hkey]
    simp [List.append_assoc]

/-- Evaluation of the splitter: a lone byte with no terminator occurrence. -/
theorem splitOnL_nl_a : splitOnL [10] [97] = [[97]] := by
  simp [splitOnL, List.isPrefixOf]

/-- Evaluation of the splitter: one byte followed by the terminator. -/
theorem splitOnL_nl_a_nl : splitOnL [10] [97, 10] = [[97], []] := by
  simp [splitOnL, List.isPrefixOf]

/-- Evaluation of `line_iter` on the single unterminated chunk `"a"`. -/
theorem line_iter_eval_a : line_iter [[97]] [10] = [[97, 10]] := by
  simp [line_iter, lineIterGo, lastPiece, splitOnL, List.isPrefixOf]

/-- Every line emitted by the splitter loop carries the terminator as a
suffix, whatever the buffer and the chunks. -/
theorem lineIterGo_mem_suffix (eol : ByteStr) :
    ∀ (chunks : List ByteStr) (buf l : ByteStr),
      l ∈ lineIterGo eol buf chunks → eol <:+ l
  | [], buf, l => by
    intro hl
    rw [lineIterGo] at hl
    split at hl
    · obtain ⟨x, _, rfl⟩ := List.mem_map.mp hl
      exact List.suffix_append x eol
    · simp at hl
  | c :: rest, buf, l => by
    intro hl
    rw [lineIterGo] at hl
    rcases List.mem_append.mp hl with h1 | h2
    · obtain ⟨x, _, rfl⟩ := List.mem_map.mp h1
      exact List.suffix_append x eol
    · exact lineIterGo_mem_suffix eol rest _ l h2

/-- Total content of sample and remainder equals the total input content, at
every intermediate state of the accumulation loop. -/
theorem accAux_flatten (size : Nat) : ∀ (its buf : List ByteStr) (n : Nat),
    (accAux size its buf n).1 ++ ((accAux size its buf n).2).flatten =
      buf.flatten ++ its.flatten
  | [], buf, n => by simp [accAux]
  | c :: rest, buf, n => by
    rw [accAux]
    by_cases hn : n < size
    · rw [if_pos hn, accAux_flatten size rest (buf ++ [c]) (n + c.length)]
      simp [List.append_assoc]
    · rw [if_neg hn]

/-- Once the accumulated size has reached the bound, the sample is frozen. -/
theorem accAux_stop (size : Nat) : ∀ (its buf : List ByteStr) (n : Nat),
    buf.flatten.length = n → ¬ n < size → (accAux size its buf n).1.length = n
  | [], buf, n => fun hb _ => by
    rw [accAux]
    exact hb
  | c :: rest, buf, n => fun hb hn => by
    rw [accAux, if_neg hn]
    exact hb

/-- While below the bound, the final sample length overshoots the bound by
less than one chunk. -/
theorem accAux_le (size : Nat) : ∀ (its buf : List ByteStr) (n : Nat),
    buf.flatten.length = n → n < size →
    (accAux size its buf n).1.length ≤ size + maxChunkLen its
  | [], buf, n => fun hb hn => by
    rw [accAux]
    rw [hb]
    omega
  | c :: rest, buf, n => fun hb hn => by
    rw [accAux, if_pos hn]
    have hb2 : (buf ++ [c]).flatten.length = n + c.length := by
      simp [hb]
    have hrfl : maxChunkLen (c :: rest) = max c.length (maxChunkLen rest) := rfl
    by_cases h2 : n + c.length < size
    · have hrec := accAux_le size rest (buf ++ [c]) (n + c.length) hb2 h2
      rw [hrfl]
      omega
    · have hrec := accAux_stop size rest (buf ++ [c]) (n + c.length) hb2 h2
      rw [hrec, hrfl]
      omega

/-- Helper for C2: a monadic map whose body always succeeds returns the plain
map, wrapped in `ok`. -/
theorem mapM_ok_of_ok (g : ByteStr → ByteStr) (f : ByteStr → Except Unit ByteStr)
    (hf : ∀ x, f x = Except.ok (g x)) : ∀ l : List ByteStr,
    l.mapM f = Except.ok (l.map g)
  | [] => rfl
  | x :: xs => by
    rw [List.mapM_cons, hf x, mapM_ok_of_ok g f hf xs]
    rfl

/-- C1 (counterexample): for the single chunk `"a"` and terminator `"\n"`,
`line_iter` yields `["a\n"]`, whose concatenation is not the original byte
string `"a"`: the round-trip adds a terminator to a trailing fragment. -/
theorem c1_roundtrip_counterexample :
    (line_iter [[97]] [10]).flatten ≠ ([[97]] : List ByteStr).flatten := by
  rw [line_iter_eval_a]
  decide

/-- C1 (amended): for every chunking and non-empty terminator, concatenating
all lines yielded by `line_iter` reproduces the original byte string exactly
when the leftmost split of that string by the terminator ends in an empty
fragment (in particular whenever the string is empty, or ends with the
terminator while the terminator does not overlap itself); otherwise it
reproduces the original with one terminator appended. -/
theorem c1_roundtrip_amended (eol : ByteStr) (chunks : List ByteStr)
    (heol : eol ≠ []) :
    (line_iter chunks eol).flatten =
      if lastPiece eol chunks.flatten = [] then chunks.flatten
      else chunks.flatten ++ eol := by
  unfold line_iter
  rw [lineIterGo_eq_batch eol heol chunks [] (not_infix_nil eol heol),
    List.nil_append, flatten_batchLines eol heol chunks.flatten]

/-- C1 witness: on the terminator-ending input `"a\n"` the round-trip is
exact. -/
theorem c1_roundtrip_amended_witness :
    (line_iter [[97, 10]] [10]).flatten = [97, 10] := by
  have h := c1_roundtrip_amended [10] [[97, 10]] (by decide)
  rw [h]
  rw [show ([[97, 10]] : List ByteStr).flatten = [97, 10] from rfl]
  rw [if_pos ?hp]
  case hp =>
    rw [lastPiece, splitOnL_nl_a_nl]
    rfl

/-- C2: `_decode_row` never raises — its exception-monad version returns
`ok` — and the decoded row has exactly the cells of the input row, in order:
the same length, and the `i`-th output cell is the per-cell decode of the
`i`-th input cell, for every row, every optional encoding, and every
behaviour of the external chardet/codec collaborators. -/
theorem c2_decode_row_total (chardet : ByteStr → Option ByteStr)
    (decodeStrict : ByteStr → ByteStr → Option ByteStr)
    (decodeIgnore : ByteStr → ByteStr → ByteStr)
    (row : List ByteStr) (encoding : Option ByteStr) :
    decode_row_exc chardet decodeStrict decodeIgnore row encoding =
      Except.ok (decode_row chardet decodeStrict decodeIgnore row encoding) ∧
    (decode_row chardet decodeStrict decodeIgnore row encoding).length = row.length ∧
    ∀ i : Nat,
      (decode_row chardet decodeStrict decodeIgnore row encoding)[i]? =
        (row[i]?).map (decode_cell_opt chardet decodeStrict decodeIgnore encoding) := by
  cases encoding with
  | none =>
    refine ⟨rfl, by simp [decode_row], ?_⟩
    intro i
    simp only [decode_row, List.getElem?_map]
    cases row[i]? <;> rfl
  | some enc =>
    refine ⟨?_, by simp [decode_row], ?_⟩
    · show row.mapM (decode_cell_exc chardet decodeStrict decodeIgnore enc) = _
      exact mapM_ok_of_ok _ _
        (fun b => by
          rw [decode_cell_exc, unicode_exc, decode_cell]
          cases decodeStrict enc b <;> rfl) row
    · intro i
      simp only [decode_row, List.getElem?_map]
      cases row[i]? <;> rfl

/-- C3: prefetching `N` bytes and then consuming the reconstructed sequence
(sample prepended to the remaining source) yields byte-for-byte the same
total content as consuming the original chunk sequence, for every `N`,
including `N = 0` and `N` at least the total length; likewise for the stream
rebuilt by `_detect_encoding_dialect`. -/
theorem c3_prefetch_replay_transparent (chunks : List ByteStr) (N : Nat) :
    ((accumulate_bytes chunks N).1 :: (accumulate_bytes chunks N).2).flatten =
      chunks.flatten ∧
    ∀ (chardet : ByteStr → Option ByteStr) (sniff : ByteStr → Option Dialect),
      ((detect_encoding_dialect chardet sniff chunks N).stream).flatten =
        chunks.flatten := by
  have h := accAux_flatten N chunks [] 0
  simp only [List.flatten_nil, List.nil_append] at h
  constructor
  · simpa [accumulate_bytes] using h
  · intro chardet sniff
    simpa [detect_encoding_dialect, accumulate_bytes] using h

/-- C4: `line_iter` yields exactly the same lines for any two chunkings of
the same byte string (chunk-boundary independence), for every non-empty
terminator, including boundaries inside a multi-byte terminator. -/
theorem c4_chunk_boundary_independence (eol : ByteStr) (cs1 cs2 : List ByteStr)
    (heol : eol ≠ []) (hsame : cs1.flatten = cs2.flatten) :
    line_iter cs1 eol = line_iter cs2 eol := by
  unfold line_iter
  rw [lineIterGo_eq_batch eol heol cs1 [] (not_infix_nil eol heol),
    lineIterGo_eq_batch eol heol cs2 [] (not_infix_nil eol heol),
    List.nil_append, List.nil_append, hsame]

/-- C4 witness: a chunk boundary falling inside the two-byte terminator
`"\r\n"` yields the same lines as the unsplit input. -/
theorem c4_chunk_boundary_independence_witness :
    line_iter [[97, 13], [10, 98]] [13, 10] = line_iter [[97, 13, 10, 98]] [13, 10] :=
  c4_chunk_boundary_independence [13, 10] [[97, 13], [10, 98]] [[97, 13, 10, 98]]
    (by decide) (by decide)

/-- C5: when the sniffed terminator is not a literal substring of the sample,
the terminator actually used is the first of `"\r\n"`, `"\n"`, `"\r"` (probed
in that order) occurring in the sample, unchanged when none occurs; in
particular a sample containing `"\n"` but never `"\r\n"` forces `"\n"` even
when the sniffer guessed `"\r\n"`. -/
theorem c5_terminator_correction (term sample : ByteStr)
    (hterm : isSub term sample = false) :
    (isSub CRLF sample = true → correct_terminator term sample = CRLF) ∧
    (isSub CRLF sample = false → isSub LF sample = true →
      correct_terminator term sample = LF) ∧
    (isSub CRLF sample = false → isSub LF sample = false →
      isSub CR sample = true → correct_terminator term sample = CR) ∧
    (isSub CRLF sample = false → isSub LF sample = false →
      isSub CR sample = false → correct_terminator term sample = term) := by
  refine ⟨?_, ?_, ?_, ?_⟩
  · intro h1
    simp [correct_terminator, hterm, h1]
  · intro h1 h2
    simp [correct_terminator, hterm, h1, h2]
  · intro h1 h2 h3
    simp [correct_terminator, hterm, h1, h2, h3]
  · intro h1 h2 h3
    simp [correct_terminator, hterm, h1, h2, h3]

/-- C5 witness: the sniffer guessed `"\r\n"` on the sample `"a\nb"`, which
contains `"\n"` but never `"\r\n"`; the corrected terminator is `"\n"`. -/
theorem c5_terminator_correction_witness :
    correct_terminator CRLF [97, 10, 98] = LF :=
  (c5_terminator_correction CRLF [97, 10, 98] (by decide)).2.1 (by decide) (by decide)

/-- C6 (counterexample): on the sample lines `",xx"`, `"aaa;bb;c;d;e;f"`,
`";;;"` (parsed by the quote-free csv split), comma has nonzero signal with
penalized variance `11/10`, the best penalized variance is `99/100`, their
ratio is exactly `9/10` — so "at least 0.9" holds — yet the selected
delimiter is `';'`, not `','`: the code compares with strict `>`. -/
theorem c6_comma_tiebreak_counterexample :
    List.lookup 44 (penalized_of naiveCsv
        (accumulate_lines exLines SEP_DETECTION_SIZE).1) = some ((11 : ℚ)/10) ∧
    (min_item (penalized_of naiveCsv
        (accumulate_lines exLines SEP_DETECTION_SIZE).1)).2 / ((11 : ℚ)/10) ≥
      (9 : ℚ)/10 ∧
    (detect_sep naiveCsv exLines SEP_DETECTION_SIZE).1 ≠ 44 := by
  have hacc1 : (accumulate_lines exLines SEP_DETECTION_SIZE).1 = exLines := rfl
  have hv1 : variance [0, 2] = 1 := by norm_num [variance]
  have hv2 : variance [3, 2, 1, 1, 1, 1, 0, 0, 0, 0] = 89/100 := by
    norm_num [variance]
  have hsv : sep_variances_of naiveCsv exLines =
      [(44, variance [0, 2]), (59, variance [3, 2, 1, 1, 1, 1, 0, 0, 0, 0])] := rfl
  have hpen : penalized_of naiveCsv exLines =
      [(44, (11 : ℚ)/10), (59, (99 : ℚ)/100)] := by
    rw [penalized_of, hsv, List.map_cons, List.map_cons, List.map_nil, hv1, hv2]
    norm_num
  have hmin : min_item (penalized_of naiveCsv exLines) = (59, (99 : ℚ)/100) := by
    rw [hpen]
    norm_num [min_item, List.foldl_cons, List.foldl_nil]
  have hlk : List.lookup 44 (penalized_of naiveCsv exLines) =
      some ((11 : ℚ)/10) := by
    rw [hpen]
    simp [List.lookup]
  refine ⟨?_, ?_, ?_⟩
  · rw [hacc1, hlk]
  · rw [hacc1, hmin]
    norm_num
  · unfold detect_sep
    simp only [hacc1]
    rw [if_neg (by rw [hsv]; simp)]
    simp only [hlk, hmin]
    norm_num

/-- C6 (amended): after the fixed `0.1` penalty, whenever comma is among the
candidates with nonzero signal and the best candidate's penalized variance
divided by comma's penalized variance is strictly greater than `0.9`, comma
is selected regardless of which candidate attains the literal minimum. -/
theorem c6_comma_tiebreak_amended (csvParse : Nat → List ByteStr → List (List ByteStr))
    (it : List ByteStr) (sepSize : Nat) (commaVar : ℚ)
    (hlk : List.lookup 44 (penalized_of csvParse (accumulate_lines it sepSize).1) =
      some commaVar)
    (hratio : (min_item (penalized_of csvParse (accumulate_lines it sepSize).1)).2 /
      commaVar > (9 : ℚ)/10) :
    (detect_sep csvParse it sepSize).1 = 44 := by
  have hsv : ¬ sep_variances_of csvParse (accumulate_lines it sepSize).1 = [] := by
    intro h
    rw [penalized_of, h, List.map_nil] at hlk
    simp [List.lookup] at hlk
  unfold detect_sep
  rw [if_neg hsv]
  simp only [hlk]
  rw [if_pos hratio]

/-- C6 witness: on the lines `",x"`, `",yy"` only comma has signal, the ratio
is `1 > 0.9`, and comma is selected. -/
theorem c6_comma_tiebreak_amended_witness :
    (detect_sep naiveCsv exLines2 SEP_DETECTION_SIZE).1 = 44 :=
  c6_comma_tiebreak_amended naiveCsv exLines2 SEP_DETECTION_SIZE ((63 : ℚ)/80)
    (by
      have hv : variance [0, 1, 0, 2] = 11/16 := by norm_num [variance]
      have hacc : (accumulate_lines exLines2 SEP_DETECTION_SIZE).1 = exLines2 := rfl
      have hsv : sep_variances_of naiveCsv exLines2 =
          [(44, variance [0, 1, 0, 2])] := rfl
      rw [hacc, penalized_of, hsv, List.map_cons, List.map_nil, hv]
      norm_num [List.lookup])
    (by
      have hv : variance [0, 1, 0, 2] = 11/16 := by norm_num [variance]
      have hacc : (accumulate_lines exLines2 SEP_DETECTION_SIZE).1 = exLines2 := rfl
      have hsv : sep_variances_of naiveCsv exLines2 =
          [(44, variance [0, 1, 0, 2])] := rfl
      rw [hacc, penalized_of, hsv, List.map_cons, List.map_nil, hv]
      norm_num [min_item, List.foldl_nil])

/-- C7 (counterexample): with the default bound `102400`, a first chunk of
`102399` bytes followed by a two-byte chunk is accumulated whole: the sample
has `102401` bytes, exceeding the configured `enc_detection_size`. -/
theorem c7_sample_bound_counterexample :
    ¬ ((accumulate_bytes [List.replicate 102399 0, [0, 0]]
        ENC_DETECTION_SIZE).1.length ≤ ENC_DETECTION_SIZE) := by
  have h : accumulate_bytes [List.replicate 102399 0, [0, 0]] ENC_DETECTION_SIZE =
      (List.replicate 102399 0 ++ ([0, 0] ++ []), []) := by
    unfold accumulate_bytes
    rw [accAux, if_pos ?h1]
    case h1 => rw [ENC_DETECTION_SIZE]; norm_num
    rw [accAux, if_pos ?h2]
    case h2 => rw [ENC_DETECTION_SIZE, List.length_replicate]; norm_num
    rw [accAux]
    simp only [List.nil_append, List.cons_append, List.flatten_cons, List.flatten_nil,
      List.append_nil]
  rw [h]
  simp only [List.length_append, List.length_replicate, List.length_cons,
    List.length_nil, ENC_DETECTION_SIZE]
  norm_num

/-- C7 (amended): the accumulated sample never exceeds the configured bound
by more than the length of one chunk: its length is at most
`enc_detection_size` plus the maximal chunk length. -/
theorem c7_sample_bound_amended (chunks : List ByteStr) (size : Nat) :
    (accumulate_bytes chunks size).1.length ≤ size + maxChunkLen chunks := by
  unfold accumulate_bytes
  by_cases h0 : 0 < size
  · exact accAux_le size chunks [] 0 (by simp) h0
  · have h := accAux_stop size chunks [] 0 (by simp) h0
    omega

/-- C8 (counterexample): explicitly supplying `enc_detection_size = 0` does
not make the reader use `0`; Python `0 or default` falls back to the default
`102400`. -/
theorem c8_zero_override_counterexample : (reader_init (some 0) none).1 ≠ 0 := by
  decide

/-- C8 (amended): every explicitly supplied non-zero override of
`enc_detection_size` or `sep_detection_size` is used exactly, and each of the
two parameters is independently overridable; a supplied `0` falls back to the
corresponding default. -/
theorem c8_size_overrides_amended (a b : Nat) (ha : a ≠ 0) (hb : b ≠ 0) :
    reader_init (some a) (some b) = (a, b) ∧
    reader_init (some a) none = (a, SEP_DETECTION_SIZE) ∧
    reader_init none (some b) = (ENC_DETECTION_SIZE, b) ∧
    reader_init (some 0) (some b) = (ENC_DETECTION_SIZE, b) ∧
    reader_init (some a) (some 0) = (a, SEP_DETECTION_SIZE) := by
  simp [reader_init, orDefault, ha, hb]

/-- C8 witness at the concrete overrides `5` and `7`. -/
theorem c8_size_overrides_amended_witness :
    reader_init (some 5) (some 7) = (5, 7) ∧
    reader_init (some 5) none = (5, SEP_DETECTION_SIZE) ∧
    reader_init none (some 7) = (ENC_DETECTION_SIZE, 7) ∧
    reader_init (some 0) (some 7) = (ENC_DETECTION_SIZE, 7) ∧
    reader_init (some 5) (some 0) = (5, SEP_DETECTION_SIZE) :=
  c8_size_overrides_amended 5 7 (by decide) (by decide)

/-- C9: for every chunk sequence and non-empty terminator, every line yielded
by `line_iter` ends with the terminator — the final trailing fragment
included, since it is yielded with the terminator appended. -/
theorem c9_lines_end_with_terminator (eol : ByteStr) (chunks : List ByteStr)
    (heol : eol ≠ []) : ∀ l ∈ line_iter chunks eol, eol <:+ l := by
  intro l hl
  exact lineIterGo_mem_suffix eol chunks [] l hl

/-- C9 witness: the single line yielded for the unterminated chunk `"a"`
ends with `"\n"`. -/
theorem c9_lines_end_with_terminator_witness : [10] <:+ [97, 10] :=
  c9_lines_end_with_terminator [10] [[97]] (by decide) [97, 10]
    (by rw [line_iter_eval_a]; exact List.mem_singleton.mpr rfl)

/-- C10: on an empty chunk source the reader yields zero rows (for any
behaviour of the external collaborators, as long as the csv parser maps no
lines to no rows): the accumulated sample is empty with nothing left over,
`line_iter` over the reconstructed stream yields no lines, and the terminator
correction keeps the fallback terminator unchanged on the empty sample. -/
theorem c10_empty_input (chardet : ByteStr → Option ByteStr)
    (sniff : ByteStr → Option Dialect)
    (csvParse : Dialect → List ByteStr → List (List ByteStr))
    (decodeStrict : ByteStr → ByteStr → Option ByteStr)
    (decodeIgnore : ByteStr → ByteStr → ByteStr) (encSize : Nat)
    (hcsv : ∀ d, csvParse d [] = []) :
    reader_iter chardet sniff csvParse decodeStrict decodeIgnore [] encSize = [] ∧
    accumulate_bytes [] encSize = ([], []) ∧
    (∀ eol : ByteStr, line_iter [[]] eol = []) ∧
    (∀ term : ByteStr, term ≠ [] → correct_terminator term [] = term) := by
  have hline : ∀ eol : ByteStr, line_iter [[]] eol = [] := by
    intro eol
    simp [line_iter, lineIterGo, lastPiece, splitOnL_nil]
  refine ⟨?_, rfl, hline, ?_⟩
  · have hstream : (detect_encoding_dialect chardet sniff [] encSize).stream =
        [[]] := rfl
    unfold reader_iter
    simp only [hstream, hline, hcsv, List.map_nil]
  · intro term hterm
    have h1 : isSub term [] = false := by
      cases term with
      | nil => exact absurd rfl hterm
      | cons c ts => rfl
    have hc1 : isSub CRLF [] = false := rfl
    have hc2 : isSub LF [] = false := rfl
    have hc3 : isSub CR [] = false := rfl
    simp [correct_terminator, h1, hc1, hc2, hc3]

/-- C10 witness: all external collaborators instantiated concretely, empty
chunk source, default sampling bound, zero rows. -/
theorem c10_empty_input_witness :
    reader_iter (fun _ => none) (fun _ => none) (fun _ _ => []) (fun _ _ => none)
      (fun _ b => b) [] ENC_DETECTION_SIZE = [] :=
  (c10_empty_input (fun _ => none) (fun _ => none) (fun _ _ => [])
    (fun _ _ => none) (fun _ b => b) ENC_DETECTION_SIZE (fun _ => rfl)).1

end Casava
